import Mathlib

/-!
Verification of the qickit unitary-synthesis core against its specification.

The development shallowly embeds the Python sources:
  * `qickit/circuit/gate_matrix/gate.py` (the `Gate` matrix-algebra helper),
  * `qickit/synthesis/gate_decompositions/one_qubit_decomposition.py`,
  * `qickit/synthesis/unitarypreparation/shannon_decomposition.py`.
Complex double-precision arrays are modelled over `ℂ`; machine indices over `ℕ`.
External numeric collaborators (scipy eigendecompositions, the circuit object,
the two-qubit KAK synthesizer) are not part of the sources and are modelled
as explicit oracle parameters or, where the spec describes them, from the spec.
-/

open scoped ComplexConjugate
open Kronecker Matrix

noncomputable section

/-! ## Basic numeric model -/

/-- Tolerance used by the rotation-suppression threshold:
source constant `EPSILON = 1e-10` in `shannon_decomposition.py`. -/
def EPSILON : ℝ := 1e-10

/-- Default tolerance of the predicates (`qickit.predicates`), spec section 4.1. -/
def predicateTol : ℝ := 1e-10

/-- Round half to even (the rounding mode of `np.round` / `np.rint`). -/
def rne (x : ℝ) : ℤ :=
  if Int.fract x < 1 / 2 then ⌊x⌋
  else if 1 / 2 < Int.fract x then ⌊x⌋ + 1
  else if Even ⌊x⌋ then ⌊x⌋ else ⌊x⌋ + 1

/-- `np.round(x, 10)` on a real scalar: scale by `10^10`, round half to even, unscale. -/
def round10 (x : ℝ) : ℝ := (rne (x * 10 ^ 10) : ℝ) / 10 ^ 10

/-- `np.round(z, 10)` on a complex scalar rounds the real and imaginary parts. -/
def round10C (z : ℂ) : ℂ := ⟨round10 z.re, round10 z.im⟩

/-- `math.atan2 y x` (also `np.arctan2`): the angle of the point `(x, y)`,
in `(-π, π]`, which is exactly `Complex.arg (x + y*I)`. -/
def atan2 (y x : ℝ) : ℝ := Complex.arg ⟨x, y⟩

/-- `np.emath.sqrt`: the principal complex square root (non-negative imaginary
part on negative real inputs). -/
def csqrt (z : ℂ) : ℂ := z ^ ((1 : ℂ) / 2)

/-! ## Unsized complex matrices

Row-major numpy arrays of complex numbers are modelled as total functions
`ℕ → ℕ → ℂ` together with an explicit dimension where an operation needs one
(numpy carries the dimension in the array's shape). -/

/-- A complex matrix, as stored by numpy; entries outside the declared
dimension are irrelevant junk. -/
def CMat : Type := ℕ → ℕ → ℂ

instance : Zero CMat := ⟨fun _ _ => 0⟩

/-- Matrix product of two `m × m` matrices (`A @ B` in numpy). -/
def cmul (m : ℕ) (A B : CMat) : CMat :=
  fun i j => ∑ k ∈ Finset.range m, A i k * B k j

/-- Conjugate transpose (`A.conj().T` in numpy). -/
def ctrans (A : CMat) : CMat := fun i j => conj (A j i)

/-- `np.diag d`: the diagonal matrix with diagonal `d`. -/
def cdiag (d : ℕ → ℂ) : CMat := fun i j => if i = j then d i else 0

/-- The identity matrix (`np.eye`). -/
def cId : CMat := fun i j => if i = j then 1 else 0

/-- Exact unitarity of the top-left `2 × 2` block: the rows are orthonormal.
Used to state claims that quantify over "2x2 unitary" matrices. -/
def IsUnitary2 (U : CMat) : Prop :=
  ∀ i < 2, ∀ j < 2,
    (∑ k ∈ Finset.range 2, U i k * conj (U j k)) = if i = j then 1 else 0

/-- Modelled from the spec (section 4.1): `is_hermitian(M, τ)` is true iff
`‖M − Mᴴ‖∞ ≤ τ` with default `τ = 1e-10`.  The predicate itself lives in
`qickit.predicates`, which is not among the sources. -/
def is_hermitian_matrix (m : ℕ) (M : CMat) : Prop :=
  ∀ i < m, ∀ j < m, Complex.abs (M i j - conj (M j i)) ≤ predicateTol

/-! ## Bit manipulations -/

/-- `len(binary_rep) - len(binary_rep.rstrip("0"))` for `binary_rep = np.binary_repr m`:
the number of trailing zero bits of `m` (for `m = 0` the string is `"0"`,
which strips to the empty string, giving `1`). -/
def trailingZeros : ℕ → ℕ
  | 0 => 1
  | (m + 1) => if (m + 1) % 2 = 0 then trailingZeros ((m + 1) / 2) + 1 else 0
decreasing_by exact Nat.div_lt_self (Nat.succ_pos m) (by omega)

/-- The position of the least-significant zero bit of `m`
(the length of the run of trailing one bits). -/
def lsZeroBit : ℕ → ℕ
  | 0 => 0
  | (m + 1) => if (m + 1) % 2 = 0 then 0 else lsZeroBit ((m + 1) / 2) + 1
decreasing_by exact Nat.div_lt_self (Nat.succ_pos m) (by omega)

/-- Reversal of the `n` low bits of `i`:
`int(bin(i)[2:].zfill(n)[::-1], 2)` in `Gate.change_mapping`. -/
def bitRev : ℕ → ℕ → ℕ
  | 0, _ => 0
  | (n + 1), i => i % 2 * 2 ^ n + bitRev n (i / 2)

/-! ## The `Gate` class (`qickit/circuit/gate_matrix/gate.py`)

A gate's matrix is validated to be unitary on construction; by the spec
(section 4.1) `is_unitary` also demands a power-of-two side, so the matrix is
stored at type `Matrix (Fin (2^n)) (Fin (2^n)) ℂ` with `n` the source's
`num_qubits = int(np.log2(matrix.shape[0]))`. -/

/-- The qubit significance ordering attribute of a gate (`"MSB"` / `"LSB"`). -/
inductive MappingOrder
  | MSB
  | LSB
deriving DecidableEq

/-- `qickit.gate_matrix.Gate`: name, matrix, qubit count, ordering. -/
structure Gate where
  name : String
  n : ℕ
  matrix : Matrix (Fin (2 ^ n)) (Fin (2 ^ n)) ℂ
  ordering : MappingOrder

/-- Modelled from the spec (section 4.1): `is_unitary(M, τ)` is true iff `M` is
square with power-of-two side (already enforced by the type here) and
`‖M·Mᴴ − I‖∞ ≤ τ`, default `τ = 1e-10`.  The predicate `is_unitary_matrix`
lives in `qickit.predicates`, which is not among the sources. -/
def is_unitary_matrix {m : ℕ} (M : Matrix (Fin m) (Fin m) ℂ) : Prop :=
  ∀ i j, Complex.abs ((M * Mᴴ - 1) i j) ≤ predicateTol

open Classical in
/-- `Gate.__init__`: store the data, raising `ValueError` ("The matrix must be
unitary.") unless the matrix passes `is_unitary_matrix`; the ordering starts
as `"MSB"`. -/
def Gate.init (name : String) (n : ℕ) (matrix : Matrix (Fin (2 ^ n)) (Fin (2 ^ n)) ℂ) :
    Except String Gate :=
  if is_unitary_matrix matrix then Except.ok ⟨name, n, matrix, MappingOrder.MSB⟩
  else Except.error "The matrix must be unitary."

/-- `Gate.adjoint`: return `matrix.T.conj()` (the gate itself is not mutated). -/
def Gate.adjoint (g : Gate) : Matrix (Fin (2 ^ g.n)) (Fin (2 ^ g.n)) ℂ :=
  g.matrixᴴ

/-- The `zero_projector` `[[1,0],[0,0]]` of `Gate.control`. -/
def P0 : Matrix (Fin 2) (Fin 2) ℂ := Matrix.of fun i j => if i = 0 ∧ j = 0 then 1 else 0

/-- The `one_projector` `[[0,0],[0,1]]` of `Gate.control`. -/
def P1 : Matrix (Fin 2) (Fin 2) ℂ := Matrix.of fun i j => if i = 1 ∧ j = 1 then 1 else 0

/-- The row-major flattening of a pair index, matching `np.kron`:
block row `a` of size `2^k` plus offset `b`. -/
def pairEquiv (k : ℕ) : Fin 2 × Fin (2 ^ k) ≃ Fin (2 ^ (k + 1)) where
  toFun p := ⟨p.1.val * 2 ^ k + p.2.val, by
    have ha : p.1.val ≤ 1 := by have := p.1.isLt; omega
    have hb : p.2.val < 2 ^ k := p.2.isLt
    have hm : p.1.val * 2 ^ k ≤ 1 * 2 ^ k := Nat.mul_le_mul_right _ ha
    rw [one_mul] at hm
    rw [pow_succ]
    omega⟩
  invFun i := (⟨i.val / 2 ^ k, by
      have hi : i.val < 2 ^ k * 2 := by rw [← pow_succ]; exact i.isLt
      exact Nat.div_lt_of_lt_mul hi⟩,
    ⟨i.val % 2 ^ k, Nat.mod_lt _ (Nat.pos_pow_of_pos k (by omega))⟩)
  left_inv p := by
    have hpos : 0 < 2 ^ k := Nat.pos_pow_of_pos k (by omega)
    have hb := p.2.isLt
    have hdiv : (p.1.val * 2 ^ k + p.2.val) / 2 ^ k = p.1.val := by
      rw [add_comm, mul_comm, Nat.add_mul_div_left _ _ hpos, Nat.div_eq_of_lt hb, zero_add]
    have hmod : (p.1.val * 2 ^ k + p.2.val) % 2 ^ k = p.2.val := by
      rw [mul_comm, Nat.mul_add_mod, Nat.mod_eq_of_lt hb]
    exact Prod.ext (Fin.ext hdiv) (Fin.ext hmod)
  right_inv i := by
    apply Fin.ext
    show i.val / 2 ^ k * 2 ^ k + i.val % 2 ^ k = i.val
    rw [mul_comm]
    exact Nat.div_add_mod i.val (2 ^ k)

/-- `np.kron(zero_projector, np.eye(2**k)) + np.kron(one_projector, U)`,
flattened row-major to a `2^(k+1) × 2^(k+1)` matrix. -/
def ctrlMat (k : ℕ) (U : Matrix (Fin (2 ^ k)) (Fin (2 ^ k)) ℂ) :
    Matrix (Fin (2 ^ (k + 1))) (Fin (2 ^ (k + 1))) ℂ :=
  ((P0 ⊗ₖ (1 : Matrix (Fin (2 ^ k)) (Fin (2 ^ k)) ℂ)) + (P1 ⊗ₖ U)).submatrix
    (pairEquiv k).symm (pairEquiv k).symm

/-- `Gate.control num_control_qubits`: raise for `k < 1`; the numpy sum
`np.kron(zero_projector, np.eye(2**k)) + np.kron(one_projector, self.matrix)`
broadcasts only when the shapes `2^(k+1)` and `2^(n+1)` agree, i.e. when
`k = n`; otherwise numpy raises a broadcast `ValueError`.  On success the
result is validated through the constructor (name `"C-" ++ name`). -/
def Gate.control (g : Gate) (k : ℕ) : Except String Gate :=
  if k < 1 then Except.error "The number of control qubits must be greater than 0."
  else if g.n = k then Gate.init ("C-" ++ g.name) (g.n + 1) (ctrlMat g.n g.matrix)
  else Except.error "operands could not be broadcast together"

/-- The index bit-reversal map on `Fin (2^n)`. -/
def revFin (n : ℕ) (i : Fin (2 ^ n)) : Fin (2 ^ n) :=
  ⟨bitRev n i.val, by
    have key : ∀ m j, bitRev m j < 2 ^ m := by
      intro m
      induction m with
      | zero => intro j; simp [bitRev]
      | succ m ih =>
        intro j
        have h := ih (j / 2)
        have hm : j % 2 ≤ 1 := by omega
        have h2 : j % 2 * 2 ^ m ≤ 1 * 2 ^ m := Nat.mul_le_mul_right _ hm
        rw [one_mul] at h2
        simp only [bitRev]
        rw [pow_succ]
        omega
    exact key n i.val⟩

/-- `Gate.change_mapping ordering`: return unchanged if the ordering already
matches, else reorder rows and columns by bit reversal of the index
(`reordered_matrix[rev i][rev j] = matrix[i][j]`, i.e. entry `(a, b)` of the
new matrix is entry `(rev a, rev b)` of the old, as bit reversal is
self-inverse) and store the new ordering. -/
def Gate.change_mapping (g : Gate) (ordering : MappingOrder) : Gate :=
  if ordering = g.ordering then g
  else ⟨g.name, g.n, g.matrix.submatrix (revFin g.n) (revFin g.n), ordering⟩

/-! ## The circuit record

Modelled from the spec (section 3): the circuit collaborator (not among the
sources) is an append-only record of primitive gate invocations; order is the
only source of semantics.  Appending to the circuit is modelled as appending
to a `List GateOp`. -/

/-- One primitive gate invocation of the circuit record. -/
inductive GateOp
  | RY (θ : ℝ) (q : ℕ)
  | RZ (θ : ℝ) (q : ℕ)
  | U3 (θ φ lam : ℝ) (q : ℕ)
  | GlobalPhase (α : ℝ)
  | CX (c t : ℕ)
  | CZ (c t : ℕ)
  | UCRZ (angles : List ℝ) (controls : List ℕ) (t : ℕ)
deriving DecidableEq

/-- Whether a gate invocation is a `CZ` entangler. -/
def GateOp.isCZ : GateOp → Bool
  | .CZ _ _ => true
  | _ => false

/-- Number of `CZ` entanglers in a record fragment. -/
def numCZ (l : List GateOp) : ℕ := (l.filter GateOp.isCZ).length

/-! ## One-qubit decomposition
(`qickit/synthesis/gate_decompositions/one_qubit_decomposition.py`) -/

/-- The decomposition basis of `OneQubitDecomposition` (default `"u3"`). -/
inductive OneQubitBasis
  | zyz
  | u3

/-- `np.linalg.det` of the top-left `2 × 2` block. -/
def det2 (U : CMat) : ℂ := U 0 0 * U 1 1 - U 0 1 * U 1 0

/-- `OneQubitDecomposition.params_zyz`: returns `(alpha, (theta, phi, lam))` with
`coe = det(U) ** (-0.5)`, `alpha = -angle(coe)`, `v = (coe * U).round(10)`,
`theta = 2 * atan2(|v₁₀|, |v₀₀|)`, `phi_lam_sum = 2 * angle(v₁₁)`,
`phi_lam_diff = 2 * angle(v₁₀)`, `phi = (sum + diff)/2`, `lam = (sum - diff)/2`. -/
def params_zyz (U : CMat) : ℝ × (ℝ × ℝ × ℝ) :=
  let coe := det2 U ^ (-(1 / 2) : ℂ)
  let alpha := -Complex.arg coe
  let v : CMat := fun i j => round10C (coe * U i j)
  let theta := 2 * atan2 (Complex.abs (v 1 0)) (Complex.abs (v 0 0))
  let phi_lam_sum := 2 * Complex.arg (v 1 1)
  let phi_lam_diff := 2 * Complex.arg (v 1 0)
  (alpha, (theta, (phi_lam_sum + phi_lam_diff) / 2, (phi_lam_sum - phi_lam_diff) / 2))

/-- `OneQubitDecomposition.params_u3`: `(phase, (theta, phi, lam))` with
`phase = alpha - (phi + lam)/2` on top of `params_zyz`. -/
def params_u3 (U : CMat) : ℝ × (ℝ × ℝ × ℝ) :=
  let p := params_zyz U
  (p.1 - (p.2.2.1 + p.2.2.2) / 2, p.2)

/-- The gates appended by `OneQubitDecomposition.apply_unitary` to the single
target qubit `q = qubit_indices[0]` (the source validates that exactly one
qubit index is supplied and that the matrix is `2 × 2`). -/
def oneQubitGates (basis : OneQubitBasis) (U : CMat) (q : ℕ) : List GateOp :=
  match basis with
  | OneQubitBasis.zyz =>
      let p := params_zyz U
      [GateOp.RZ p.2.2.2 q, GateOp.RY p.2.1 q, GateOp.RZ p.2.2.1 q, GateOp.GlobalPhase p.1]
  | OneQubitBasis.u3 =>
      let p := params_u3 U
      [GateOp.U3 p.2.1 p.2.2.1 p.2.2.2 q, GateOp.GlobalPhase p.1]

/-! ## Uniformly-controlled rotation kernel -/

/-- Modelled from the spec (section 4.2): the half-butterfly angle transform of
`decompose_uc_rotations` (which lives in `qickit.circuit.circuit_utils`, not
among the sources).  `k` is the number of halving levels: split the vector in
half, recursively transform each half, then replace each pair `(a, b)` that
spans the halves by `((a+b)/2, (a-b)/2)`. -/
def ucHalfButterfly : ℕ → List ℝ → List ℝ
  | 0, l => l
  | (k + 1), l =>
      let h := l.length / 2
      let a := ucHalfButterfly k (l.take h)
      let b := ucHalfButterfly k (l.drop h)
      List.zipWith (fun x y => (x + y) / 2) a b ++ List.zipWith (fun x y => (x - y) / 2) a b

/-- Modelled from the spec (section 4.2): `decompose_uc_rotations(angles, 0,
len(angles), flag)`; the boolean flag chooses whether to negate the second
half (the Shannon-decomposition caller passes `False`). -/
def decompose_uc_rotations (angles : List ℝ) (reversedDec : Bool) : List ℝ :=
  let t := ucHalfButterfly (Nat.log2 angles.length) angles
  if reversedDec then
    t.take (t.length / 2) ++ (t.drop (t.length / 2)).map (fun x => -x)
  else t

/-- The `for (i, angle) in enumerate(angles)` loop of `get_ucry_cz`:
append the rotation when `|angle| > EPSILON`; compute the control position
(trailing-zero count of `i + 1`, or `len(controls) - 1` at the last index)
and append the `CZ` entangler unless `i` is the last index. -/
def ucryLoop (controls : List ℕ) (target : ℕ) (num_angles : ℕ) :
    ℕ → List ℝ → List GateOp
  | _, [] => []
  | i, angle :: rest =>
      (if EPSILON < |angle| then [GateOp.RY angle target] else [])
        ++ (if i < num_angles - 1 then
              [GateOp.CZ
                (controls.getD
                  (if i ≠ num_angles - 1 then trailingZeros (i + 1)
                   else controls.length - 1) 0)
                target]
            else [])
        ++ ucryLoop controls target num_angles (i + 1) rest

/-- `get_ucry_cz circuit qubit_indices angles` (the appended gates):
controls are `qubit_indices[:-1]`, target is `qubit_indices[-1]`; with no
controls a single (threshold-suppressed) `RY`; otherwise run the angle
transform and the rotation/CZ emission loop, leaving off the last `CZ` for
merging with the adjacent uniformly-controlled gate. -/
def get_ucry_cz (qubit_indices : List ℕ) (angles : List ℝ) : List GateOp :=
  let num_angles := angles.length
  let control_indices := qubit_indices.dropLast
  let target_index := qubit_indices.getLastD 0
  if control_indices = [] then
    if EPSILON < |angles.headD 0| then [GateOp.RY (angles.headD 0) target_index] else []
  else
    ucryLoop control_indices target_index num_angles 0 (decompose_uc_rotations angles false)

/-! ## Oracles for external numeric collaborators

`scipy.linalg.cossin / eigh / schur` and the qickit `TwoQubitDecomposition`
and circuit readback are not among the sources; they enter the embedding as
explicit oracle parameters. -/

/-- The external numeric routines used by `ShannonDecomposition.apply_unitary`:
`cossin dim U = ((u1, u2), vtheta, (v1h, v2h))`, `eigh m u = (eigenvalues,
eigenvectors)`, `schur m u = (T, Z)` (complex Schur), `twoQubit U qubits` the
gates appended by `TwoQubitDecomposition.apply_unitary`, `getUnitary log` the
circuit readback of a two-qubit fragment, `upToDiag U = (log, diagonal)` from
`apply_unitary_up_to_diagonal`, and `prepare U` from `prepare_unitary`. -/
structure QsdOracles where
  cossin : ℕ → CMat → (CMat × CMat) × List ℝ × (CMat × CMat)
  eigh : ℕ → CMat → (ℕ → ℂ) × CMat
  schur : ℕ → CMat → CMat × CMat
  twoQubit : CMat → List ℕ → List GateOp
  getUnitary : List GateOp → CMat
  upToDiag : CMat → List GateOp × CMat
  prepare : CMat → List GateOp

/-- `circuit.circuit_log[s:e]`. -/
def sliceLog (log : List GateOp) (s e : ℕ) : List GateOp := (log.drop s).take (e - s)

/-- The `qsd_blocks` slices of `apply_a2_optimization`. -/
def qsdBlockSlices (log : List GateOp) (blocks : List (ℕ × ℕ)) : List (List GateOp) :=
  blocks.map fun b => sliceLog log b.1 b.2

/-- The `circuit_blocks` slices of `apply_a2_optimization`: the prefix before
the first block, the gaps between consecutive blocks, and the suffix after
the last block. -/
def gapSlices (log : List GateOp) (blocks : List (ℕ × ℕ)) : List (List GateOp) :=
  sliceLog log 0 (blocks.headD (0, 0)).1 ::
    ((blocks.zip blocks.tail).map fun p => sliceLog log p.1.2 p.2.1)
      ++ [log.drop (blocks.getLastD (0, 0)).2]

/-- The `for block_index in range(len(qsd_blocks) - 1)` loop of
`apply_a2_optimization`: each adjacent pair `(b₁, b₂)` is re-synthesized,
`b₁` up to a diagonal, `b₂` from `unitary(b₂) @ diagonal`; the updated `b₂`
is the left element of the next pair. -/
def a2Fold (O : QsdOracles) : List (List GateOp) → List (List GateOp)
  | [] => []
  | [b] => [b]
  | b1 :: b2 :: rest =>
      let u1 := O.getUnitary b1
      let u2 := O.getUnitary b2
      let p := O.upToDiag u1
      let c2 := O.prepare (cmul 4 u2 p.2)
      p.1 :: a2Fold O (c2 :: rest)
termination_by l => l.length
decreasing_by simp [List.length_cons]

/-- `apply_a2_optimization circuit a2_qsd_blocks`: return the record unchanged
when fewer than two leaf blocks were collected; otherwise split the record
into gap and leaf slices, rewrite adjacent leaf pairs left to right, and
reassemble gap₀, leaf₀, gap₁, leaf₁, … (the final `assert_almost_equal`
integrity re-check is a runtime assertion, not part of the record).  -/
def apply_a2_optimization (O : QsdOracles) (log : List GateOp)
    (blocks : List (ℕ × ℕ)) : List GateOp :=
  if blocks.length < 2 then log
  else
    let qsdBs := a2Fold O (qsdBlockSlices log blocks)
    let gaps := gapSlices log blocks
    gaps.headD [] ++ ((qsdBs.zip gaps.tail).map fun p => p.1 ++ p.2).flatten

open Classical in
/-- The eigendecomposition step of `demultiplexor`: Hermitian eigendecomposition
(`scipy.linalg.eigh`) when `u` is Hermitian within tolerance, else complex
Schur decomposition taking the diagonal of the upper-triangular factor. -/
def eigOrSchur (O : QsdOracles) (m : ℕ) (u : CMat) : (ℕ → ℂ) × CMat :=
  if is_hermitian_matrix m u then O.eigh m u
  else (fun i => (O.schur m u).1 i i, (O.schur m u).2)

mutual

/-- `quantum_shannon_decomposition circuit qubit_indices unitary depth` from
`ShannonDecomposition.apply_unitary`, returning the circuit record after the
call together with the collected A.2 leaf-block ranges.  `dim` is
`unitary.shape[0]` (numpy carries it in the array).  Dimension 2 delegates to
the one-qubit decomposition (default `u3` basis); dimension 4 delegates to the
two-qubit decomposition and, at positive depth, records the block range;
otherwise cosine-sine decompose, run the left demultiplexor, emit the central
uniformly-controlled rotation with doubled angles in the CZ basis (A.1),
negate the right half of `u2`'s columns to merge the dropped final CZ, run
the right demultiplexor, and at depth 0 run the A.2 post-pass.  (For the
dimensions `0`, `1`, `3` that cannot reach this code through the validated
entry point, `scipy.linalg.cossin` would raise; modelled as a no-op.) -/
def quantum_shannon_decomposition (O : QsdOracles) (circuit : List GateOp)
    (blocks : List (ℕ × ℕ)) (qubit_indices : List ℕ) (unitary : CMat)
    (dim : ℕ) (recursion_depth : ℕ) : List GateOp × List (ℕ × ℕ) :=
  if dim = 2 then
    (circuit ++ oneQubitGates OneQubitBasis.u3 unitary (qubit_indices.headD 0), blocks)
  else if dim = 4 then
    let newLog := O.twoQubit unitary qubit_indices
    (circuit ++ newLog,
      if 0 < recursion_depth then blocks ++ [(circuit.length, circuit.length + newLog.length)]
      else blocks)
  else if h : 4 < dim then
    let cs := O.cossin dim unitary
    let u1 := cs.1.1
    let u2 := cs.1.2
    let vtheta := cs.2.1
    let v1h := cs.2.2.1
    let v2h := cs.2.2.2
    let left := demultiplexor O circuit blocks qubit_indices v1h v2h (dim / 2) recursion_depth
    let half_size := vtheta.length / 2
    let afterUcry := left.1 ++ get_ucry_cz qubit_indices (vtheta.map fun θ => 2 * θ)
    let u2n : CMat := fun i j => if half_size ≤ j then -u2 i j else u2 i j
    let right := demultiplexor O afterUcry left.2 qubit_indices u1 u2n (dim / 2) recursion_depth
    if recursion_depth = 0 then (apply_a2_optimization O right.1 right.2, right.2) else right
  else (circuit, blocks)
termination_by (dim, 1)

/-- `demultiplexor circuit demux_qubits unitary_1 unitary_2 depth`: compute
`u = unitary_1 @ unitary_2.conj().T`; eigendecompose it (Hermitian
eigendecomposition when `u` is Hermitian within tolerance, else complex Schur
taking the diagonal); recurse on `W = diag(emath.sqrt(eigenvalues)) @
eigenvectors.conj().T @ unitary_2` over the inner qubits; append the
multiplexed-RZ `UCRZ` gate with angles `2 * angle(conj(sqrt(eigenvalues)))`,
controls the inner qubits and target the outer control qubit; recurse on
`eigenvectors`.  `m` is the block dimension. -/
def demultiplexor (O : QsdOracles) (circuit : List GateOp) (blocks : List (ℕ × ℕ))
    (demux_qubits : List ℕ) (unitary_1 unitary_2 : CMat) (m : ℕ)
    (recursion_depth : ℕ) : List GateOp × List (ℕ × ℕ) :=
  let u := cmul m unitary_1 (ctrans unitary_2)
  let ed := eigOrSchur O m u
  let eigenvalues_sqrt : ℕ → ℂ := fun i => csqrt (ed.1 i)
  let W := cmul m (cmul m (cdiag eigenvalues_sqrt) (ctrans ed.2)) unitary_2
  let left := quantum_shannon_decomposition O circuit blocks demux_qubits.dropLast W m
    (recursion_depth + 1)
  let angles : List ℝ := (List.range m).map fun i => 2 * Complex.arg (conj (eigenvalues_sqrt i))
  let afterRz := left.1 ++
    [GateOp.UCRZ angles demux_qubits.dropLast (demux_qubits.getLastD 0)]
  quantum_shannon_decomposition O afterRz left.2 demux_qubits.dropLast ed.2 m
    (recursion_depth + 1)
termination_by (m, 2)

end

/-- `ShannonDecomposition.apply_unitary circuit unitary qubit_indices`: the
validated entry point has `len(qubit_indices) = unitary.num_qubits`, so
`unitary.shape[0] = 2 ^ len(qubit_indices)`; the A.2 block stack starts
empty and the recursion starts at depth 0. -/
def shannon_apply_unitary (O : QsdOracles) (circuit : List GateOp) (unitary : CMat)
    (qubit_indices : List ℕ) : List GateOp :=
  (quantum_shannon_decomposition O circuit [] qubit_indices unitary
    (2 ^ qubit_indices.length) 0).1

/-! ## Spec-side definitions and concrete instances used by the claims -/

/-- The spec's stated closed form for `params_zyz` (section 4.3), with
`V = c · U` taken verbatim, without the source's rounding step. -/
def params_zyz_claim (U : CMat) : ℝ × (ℝ × ℝ × ℝ) :=
  (-Complex.arg (det2 U ^ (-(1 / 2) : ℂ)),
    (2 * atan2 (Complex.abs (det2 U ^ (-(1 / 2) : ℂ) * U 1 0))
        (Complex.abs (det2 U ^ (-(1 / 2) : ℂ) * U 0 0)),
      (2 * Complex.arg (det2 U ^ (-(1 / 2) : ℂ) * U 1 1)
          + 2 * Complex.arg (det2 U ^ (-(1 / 2) : ℂ) * U 1 0)) / 2,
      (2 * Complex.arg (det2 U ^ (-(1 / 2) : ℂ) * U 1 1)
          - 2 * Complex.arg (det2 U ^ (-(1 / 2) : ℂ) * U 1 0)) / 2))

/-- The spec's closed form for `params_zyz` amended with the source's
rounding: every entry of `V = c · U` is rounded to 10 decimal places
(half-to-even, per component) before the angles are extracted. -/
def params_zyz_rounded_spec (U : CMat) : ℝ × (ℝ × ℝ × ℝ) :=
  (-Complex.arg (det2 U ^ (-(1 / 2) : ℂ)),
    (2 * atan2 (Complex.abs (round10C (det2 U ^ (-(1 / 2) : ℂ) * U 1 0)))
        (Complex.abs (round10C (det2 U ^ (-(1 / 2) : ℂ) * U 0 0))),
      (2 * Complex.arg (round10C (det2 U ^ (-(1 / 2) : ℂ) * U 1 1))
          + 2 * Complex.arg (round10C (det2 U ^ (-(1 / 2) : ℂ) * U 1 0))) / 2,
      (2 * Complex.arg (round10C (det2 U ^ (-(1 / 2) : ℂ) * U 1 1))
          - 2 * Complex.arg (round10C (det2 U ^ (-(1 / 2) : ℂ) * U 1 0))) / 2))

/-- Inert instantiation of the external collaborators, used to exhibit
satisfiable hypotheses of the structural theorems. -/
def trivialOracles : QsdOracles :=
  ⟨fun d _ => ((0, 0), List.replicate (d / 2) 0, (0, 0)),
    fun _ _ => (fun _ => 0, 0), fun _ _ => (0, 0),
    fun _ _ => [], fun _ => 0, fun _ => ([], 0), fun _ => []⟩

/-- A one-qubit identity `Gate` (`Gate("I", np.eye(2))`). -/
def idGate : Gate := ⟨"I", 1, 1, MappingOrder.MSB⟩

/-- The `CNOT` matrix in the MSB convention. -/
def cxM : Matrix (Fin (2 ^ 2)) (Fin (2 ^ 2)) ℂ :=
  Matrix.of fun i j =>
    if (i.val = 0 ∧ j.val = 0) ∨ (i.val = 1 ∧ j.val = 1)
        ∨ (i.val = 2 ∧ j.val = 3) ∨ (i.val = 3 ∧ j.val = 2) then 1 else 0

/-- A two-qubit `CNOT` `Gate` (`Gate("CX", ...)`). -/
def cxGate : Gate := ⟨"CX", 2, cxM, MappingOrder.MSB⟩

/-- The small rotation angle `10^(-11)` of the `params_zyz` rounding witness. -/
def sC6 : ℝ := 1 / 10 ^ 11

/-- `sqrt (1 - sC6²)`, the matching cosine. -/
def cC6 : ℝ := Real.sqrt (1 - sC6 ^ 2)

/-- The exactly unitary rotation `[[c, -s], [s, c]]` with `s = 10^(-11)`:
its entries change under rounding to 10 decimal places. -/
def UC6 : CMat := fun i j =>
  if i = 0 ∧ j = 0 then (cC6 : ℂ)
  else if i = 0 ∧ j = 1 then -(sC6 : ℂ)
  else if i = 1 ∧ j = 0 then (sC6 : ℂ)
  else if i = 1 ∧ j = 1 then (cC6 : ℂ)
  else 0

end

/-! # Theorems -/

/-! ## Bit reversal -/

theorem bitRev_lt (n : ℕ) : ∀ i, bitRev n i < 2 ^ n := by
  induction n with
  | zero => intro i; simp [bitRev]
  | succ n ih =>
    intro i
    have h := ih (i / 2)
    have hm : i % 2 ≤ 1 := by omega
    have h2 : i % 2 * 2 ^ n ≤ 1 * 2 ^ n := Nat.mul_le_mul_right _ hm
    rw [one_mul] at h2
    simp only [bitRev]
    rw [pow_succ]
    omega

theorem testBit_bitRev (n : ℕ) : ∀ i j, (bitRev n i).testBit j =
    if j < n then i.testBit (n - 1 - j) else false := by
  induction n with
  | zero => intro i j; simp [bitRev]
  | succ n ih =>
    intro i j
    have hlt := bitRev_lt n (i / 2)
    have hkey : bitRev (n + 1) i = 2 ^ n * (i % 2) + bitRev n (i / 2) := by
      simp only [bitRev]; ring
    rw [hkey, Nat.testBit_mul_pow_two_add _ hlt]
    rcases lt_trichotomy j n with hj | hj | hj
    · rw [if_pos hj, if_pos (by omega), ih]
      rw [if_pos hj]
      have harith : n - 1 - j + 1 = n - j := by omega
      rw [← Nat.testBit_add_one, harith]
      congr 1
    · subst hj
      rw [if_neg (by omega), if_pos (by omega)]
      simp [Nat.testBit_zero, Nat.sub_self]
    · rw [if_neg (by omega), if_neg (by omega)]
      have hsmall : i % 2 < 2 ^ (j - n) := by
        have h1 : i % 2 < 2 := by omega
        have h2 : (2 : ℕ) ^ 1 ≤ 2 ^ (j - n) := Nat.pow_le_pow_right (by omega) (by omega)
        omega
      exact Nat.testBit_lt_two_pow hsmall

theorem bitRev_bitRev (n : ℕ) (i : ℕ) (hi : i < 2 ^ n) :
    bitRev n (bitRev n i) = i := by
  apply Nat.eq_of_testBit_eq
  intro j
  rcases lt_or_ge j n with hj | hj
  · rw [testBit_bitRev, if_pos hj, testBit_bitRev, if_pos (by omega)]
    congr 1
    omega
  · have hle : (2 : ℕ) ^ n ≤ 2 ^ j := Nat.pow_le_pow_right (by omega) hj
    rw [Nat.testBit_lt_two_pow (lt_of_lt_of_le (bitRev_lt n _) hle),
      Nat.testBit_lt_two_pow (lt_of_lt_of_le hi hle)]

theorem revFin_revFin (n : ℕ) (i : Fin (2 ^ n)) : revFin n (revFin n i) = i :=
  Fin.ext (bitRev_bitRev n i.val i.isLt)


/-! ## Claim C9: endian round trip of `Gate.change_mapping` -/

theorem submatrix_revFin_revFin {n : ℕ} (M : Matrix (Fin (2 ^ n)) (Fin (2 ^ n)) ℂ) :
    (M.submatrix (revFin n) (revFin n)).submatrix (revFin n) (revFin n) = M := by
  rw [Matrix.submatrix_submatrix]
  have hid : (revFin n ∘ revFin n) = id := funext fun i => revFin_revFin n i
  rw [hid, Matrix.submatrix_id_id]

/-- Claim C9 (amended): for every `Gate` whose ordering attribute is the
default `"MSB"` (the state every constructed gate starts in),
`change_mapping("LSB")` followed by `change_mapping("MSB")` returns the gate
to exactly its original state: the matrix is restored entrywise (bit reversal
of the index is an involution) and the ordering attribute is `"MSB"` again. -/
theorem change_mapping_lsb_msb (g : Gate) (h : g.ordering = MappingOrder.MSB) :
    (g.change_mapping MappingOrder.LSB).change_mapping MappingOrder.MSB = g := by
  obtain ⟨nm, n, M, ord⟩ := g
  have h' : ord = MappingOrder.MSB := h
  subst h'
  show Gate.change_mapping
    (Gate.change_mapping ⟨nm, n, M, MappingOrder.MSB⟩ MappingOrder.LSB) MappingOrder.MSB
    = ⟨nm, n, M, MappingOrder.MSB⟩
  have h1 : Gate.change_mapping ⟨nm, n, M, MappingOrder.MSB⟩ MappingOrder.LSB
      = ⟨nm, n, M.submatrix (revFin n) (revFin n), MappingOrder.LSB⟩ := rfl
  rw [h1]
  have h2 : Gate.change_mapping
      ⟨nm, n, M.submatrix (revFin n) (revFin n), MappingOrder.LSB⟩ MappingOrder.MSB
      = ⟨nm, n, (M.submatrix (revFin n) (revFin n)).submatrix (revFin n) (revFin n),
          MappingOrder.MSB⟩ := rfl
  rw [h2, submatrix_revFin_revFin]

/-- Witness for C9 at the concrete `CNOT` gate. -/
theorem change_mapping_lsb_msb_witness : cxGate.ordering = MappingOrder.MSB ∧
    (cxGate.change_mapping MappingOrder.LSB).change_mapping MappingOrder.MSB = cxGate :=
  ⟨rfl, change_mapping_lsb_msb cxGate rfl⟩

/-- Claim C9, as stated, is false for a gate whose ordering is already
`"LSB"` (reachable through one public `change_mapping("LSB")` call): there
the `"LSB"` call is a no-op and the `"MSB"` call applies a single bit
reversal, so the matrix does not return to the value it held before the two
calls. -/
theorem change_mapping_lsb_msb_counterexample :
    ¬ ((((cxGate.change_mapping MappingOrder.LSB).change_mapping
          MappingOrder.LSB).change_mapping MappingOrder.MSB).matrix
        = (cxGate.change_mapping MappingOrder.LSB).matrix) := by
  show ¬ ((cxM.submatrix (revFin 2) (revFin 2)).submatrix (revFin 2) (revFin 2)
      = cxM.submatrix (revFin 2) (revFin 2))
  intro hEq
  have h11 := congrFun (congrFun hEq ⟨1, by norm_num⟩) ⟨1, by norm_num⟩
  simp only [Matrix.submatrix_apply] at h11
  norm_num [revFin, bitRev, cxM, Matrix.of_apply] at h11

/-! ## Claim C10: the `Gate` unitarity invariant -/

theorem init_ok_unitary (nm : String) (n : ℕ) (M : Matrix (Fin (2 ^ n)) (Fin (2 ^ n)) ℂ)
    (g : Gate) (h : Gate.init nm n M = Except.ok g) : is_unitary_matrix g.matrix := by
  unfold Gate.init at h
  by_cases hu : is_unitary_matrix M
  · rw [if_pos hu] at h
    injection h with h'
    subst h'
    exact hu
  · rw [if_neg hu] at h
    exact absurd h (by simp)

theorem is_unitary_matrix_submatrix {m : ℕ} (M : Matrix (Fin m) (Fin m) ℂ)
    (e : Fin m ≃ Fin m) (h : is_unitary_matrix M) :
    is_unitary_matrix (M.submatrix e e) := by
  intro i j
  have key : (M.submatrix e e * (M.submatrix e e)ᴴ - 1) i j
      = (M * Mᴴ - 1) (e i) (e j) := by
    rw [Matrix.conjTranspose_submatrix, Matrix.submatrix_mul_equiv]
    simp [Matrix.sub_apply, Matrix.submatrix_apply, Matrix.one_apply,
      EmbeddingLike.apply_eq_iff_eq]
  rw [key]
  exact h _ _

/-- Claim C10: `Gate` construction rejects exactly the matrices that fail the
unitarity tolerance check and stores the matrix unchanged otherwise (ordering
`"MSB"`); every `Gate` obtained from the constructor holds a matrix that is
unitary within tolerance; `adjoint` only returns the conjugate transpose;
`control` re-validates its result through the constructor; and
`change_mapping`'s bit-reversal permutation of rows and columns preserves the
unitarity tolerance. -/
theorem gate_unitarity_invariants :
    (∀ (nm : String) (n : ℕ) (M : Matrix (Fin (2 ^ n)) (Fin (2 ^ n)) ℂ),
      (is_unitary_matrix M →
        Gate.init nm n M = Except.ok ⟨nm, n, M, MappingOrder.MSB⟩) ∧
      (¬ is_unitary_matrix M →
        Gate.init nm n M = Except.error "The matrix must be unitary.")) ∧
    (∀ (nm : String) (n : ℕ) (M : Matrix (Fin (2 ^ n)) (Fin (2 ^ n)) ℂ) (g : Gate),
      Gate.init nm n M = Except.ok g → is_unitary_matrix g.matrix) ∧
    (∀ g : Gate, g.adjoint = g.matrixᴴ) ∧
    (∀ (g : Gate) (k : ℕ) (g' : Gate),
      g.control k = Except.ok g' → is_unitary_matrix g'.matrix) ∧
    (∀ (g : Gate) (ord : MappingOrder), is_unitary_matrix g.matrix →
      is_unitary_matrix (g.change_mapping ord).matrix) := by
  refine ⟨fun nm n M => ⟨fun hu => ?_, fun hu => ?_⟩, init_ok_unitary,
    fun g => rfl, fun g k g' hok => ?_, fun g ord h => ?_⟩
  · unfold Gate.init
    rw [if_pos hu]
  · unfold Gate.init
    rw [if_neg hu]
  · unfold Gate.control at hok
    by_cases h1 : k < 1
    · rw [if_pos h1] at hok
      exact absurd hok (by simp)
    · rw [if_neg h1] at hok
      by_cases h2 : g.n = k
      · rw [if_pos h2] at hok
        exact init_ok_unitary _ _ _ _ hok
      · rw [if_neg h2] at hok
        exact absurd hok (by simp)
  · obtain ⟨nm, n, M, og⟩ := g
    show is_unitary_matrix (Gate.change_mapping ⟨nm, n, M, og⟩ ord).matrix
    cases ord <;> cases og <;>
      first
        | exact h
        | exact is_unitary_matrix_submatrix M
            ⟨revFin n, revFin n, revFin_revFin n, revFin_revFin n⟩ h

/-- Witness for C10: the identity matrix passes the constructor's check. -/
theorem gate_unitarity_invariants_witness :
    is_unitary_matrix (1 : Matrix (Fin (2 ^ 1)) (Fin (2 ^ 1)) ℂ) ∧
    Gate.init "I" 1 (1 : Matrix (Fin (2 ^ 1)) (Fin (2 ^ 1)) ℂ)
      = Except.ok ⟨"I", 1, 1, MappingOrder.MSB⟩ := by
  have hu : is_unitary_matrix (1 : Matrix (Fin (2 ^ 1)) (Fin (2 ^ 1)) ℂ) := by
    intro i j
    rw [Matrix.conjTranspose_one, mul_one, sub_self]
    norm_num [predicateTol]
  exact ⟨hu, (gate_unitarity_invariants.1 "I" 1 1).1 hu⟩

/-! ## Claim C2: `Gate.control` -/

theorem P0_conjT : P0ᴴ = P0 := by
  ext i j
  fin_cases i <;> fin_cases j <;>
    simp [P0, Matrix.conjTranspose_apply, Matrix.of_apply]

theorem P1_conjT : P1ᴴ = P1 := by
  ext i j
  fin_cases i <;> fin_cases j <;>
    simp [P1, Matrix.conjTranspose_apply, Matrix.of_apply]

theorem P0_mul_P0 : P0 * P0 = P0 := by
  ext i j
  fin_cases i <;> fin_cases j <;>
    simp [P0, Matrix.mul_apply, Fin.sum_univ_two, Matrix.of_apply]

theorem P1_mul_P1 : P1 * P1 = P1 := by
  ext i j
  fin_cases i <;> fin_cases j <;>
    simp [P1, Matrix.mul_apply, Fin.sum_univ_two, Matrix.of_apply]

theorem P0_mul_P1 : P0 * P1 = 0 := by
  ext i j
  fin_cases i <;> fin_cases j <;>
    simp [P0, P1, Matrix.mul_apply, Fin.sum_univ_two, Matrix.of_apply]

theorem P1_mul_P0 : P1 * P0 = 0 := by
  ext i j
  fin_cases i <;> fin_cases j <;>
    simp [P0, P1, Matrix.mul_apply, Fin.sum_univ_two, Matrix.of_apply]

theorem P0_add_P1 : P0 + P1 = 1 := by
  ext i j
  fin_cases i <;> fin_cases j <;>
    simp [P0, P1, Matrix.add_apply, Matrix.one_apply, Matrix.of_apply]

theorem kron_conjTranspose {m : ℕ} (A : Matrix (Fin 2) (Fin 2) ℂ)
    (B : Matrix (Fin m) (Fin m) ℂ) : (A ⊗ₖ B)ᴴ = Aᴴ ⊗ₖ Bᴴ := by
  ext i j
  simp [Matrix.kroneckerMap_apply, Matrix.conjTranspose_apply, star_mul']

theorem ctrlMat_mul_conjTranspose (k : ℕ) (U : Matrix (Fin (2 ^ k)) (Fin (2 ^ k)) ℂ)
    (hU : U * Uᴴ = 1) : ctrlMat k U * (ctrlMat k U)ᴴ = 1 := by
  unfold ctrlMat
  rw [Matrix.conjTranspose_submatrix, Matrix.submatrix_mul_equiv]
  have hM : ((P0 ⊗ₖ (1 : Matrix (Fin (2 ^ k)) (Fin (2 ^ k)) ℂ)) + (P1 ⊗ₖ U))
      * ((P0 ⊗ₖ (1 : Matrix (Fin (2 ^ k)) (Fin (2 ^ k)) ℂ)) + (P1 ⊗ₖ U))ᴴ = 1 := by
    rw [Matrix.conjTranspose_add, kron_conjTranspose, kron_conjTranspose,
      P0_conjT, P1_conjT, Matrix.conjTranspose_one]
    rw [Matrix.add_mul, Matrix.mul_add, Matrix.mul_add]
    rw [← Matrix.mul_kronecker_mul, ← Matrix.mul_kronecker_mul,
      ← Matrix.mul_kronecker_mul, ← Matrix.mul_kronecker_mul]
    rw [P0_mul_P0, P0_mul_P1, P1_mul_P0, P1_mul_P1, hU, one_mul, mul_one]
    rw [Matrix.zero_kronecker, Matrix.zero_kronecker, add_zero, zero_add,
      ← Matrix.add_kronecker, P0_add_P1, Matrix.one_kronecker_one]
  rw [hM, Matrix.submatrix_one_equiv]

/-- Claim C2 (amended): for a `Gate` `G` whose matrix is `2^n × 2^n` unitary
and `k = n` with `k ≥ 1`, `G.control(k)` succeeds and returns a gate on
`k + 1` qubits (matrix size `2^(k+1)`) whose matrix is the flattened
`|0⟩⟨0| ⊗ I_{2^k} + |1⟩⟨1| ⊗ U`, and that matrix is unitary.  (For `k ≠ n`
the numpy addition of the two Kronecker products fails to broadcast, see the
counterexample, so the claim is restricted to `k = n`.) -/
theorem control_spec (g : Gate) (hU : g.matrix * g.matrixᴴ = 1) (hn : 1 ≤ g.n) :
    g.control g.n = Except.ok ⟨"C-" ++ g.name, g.n + 1,
      ((P0 ⊗ₖ (1 : Matrix (Fin (2 ^ g.n)) (Fin (2 ^ g.n)) ℂ))
          + (P1 ⊗ₖ g.matrix)).submatrix (pairEquiv g.n).symm (pairEquiv g.n).symm,
      MappingOrder.MSB⟩ ∧
    ctrlMat g.n g.matrix * (ctrlMat g.n g.matrix)ᴴ = 1 := by
  have hctrl := ctrlMat_mul_conjTranspose g.n g.matrix hU
  refine ⟨?_, hctrl⟩
  unfold Gate.control
  rw [if_neg (by omega), if_pos rfl]
  have hu : is_unitary_matrix (ctrlMat g.n g.matrix) := by
    intro i j
    rw [hctrl, sub_self]
    norm_num [predicateTol]
  unfold Gate.init
  rw [if_pos hu]
  rfl

/-- Witness for C2 at the one-qubit identity gate with `k = n = 1`. -/
theorem control_spec_witness :
    (idGate.matrix * idGate.matrixᴴ = 1 ∧ 1 ≤ idGate.n) ∧
    (idGate.control idGate.n = Except.ok ⟨"C-" ++ idGate.name, idGate.n + 1,
      ((P0 ⊗ₖ (1 : Matrix (Fin (2 ^ idGate.n)) (Fin (2 ^ idGate.n)) ℂ))
          + (P1 ⊗ₖ idGate.matrix)).submatrix
          (pairEquiv idGate.n).symm (pairEquiv idGate.n).symm,
      MappingOrder.MSB⟩ ∧
    ctrlMat idGate.n idGate.matrix * (ctrlMat idGate.n idGate.matrix)ᴴ = 1) := by
  have h1 : idGate.matrix * idGate.matrixᴴ = 1 := by
    have hm : idGate.matrix = (1 : Matrix (Fin (2 ^ idGate.n)) (Fin (2 ^ idGate.n)) ℂ) := rfl
    rw [hm, Matrix.conjTranspose_one, mul_one]
  exact ⟨⟨h1, le_refl 1⟩, control_spec idGate h1 (le_refl 1)⟩

/-- Claim C2, as stated, is false for `k ≠ n`: `G.control(k)` does not succeed
for every `k ≥ 1`.  For the one-qubit identity gate and `k = 2`, the numpy
sum `np.kron(|0⟩⟨0|, I_4) + np.kron(|1⟩⟨1|, U)` adds an `8×8` to a `4×4`
array and raises a broadcast `ValueError`. -/
theorem control_spec_counterexample :
    1 ≤ 2 ∧ idGate.control 2 = Except.error "operands could not be broadcast together" ∧
    Gate.init "I" 1 (1 : Matrix (Fin (2 ^ 1)) (Fin (2 ^ 1)) ℂ) = Except.ok idGate := by
  refine ⟨by norm_num, rfl, ?_⟩
  have hu : is_unitary_matrix (1 : Matrix (Fin (2 ^ 1)) (Fin (2 ^ 1)) ℂ) := by
    intro i j
    rw [Matrix.conjTranspose_one, mul_one, sub_self]
    norm_num [predicateTol]
  unfold Gate.init
  rw [if_pos hu]
  rfl

/-! ## Rounding lemmas -/

theorem rne_intCast (n : ℤ) : rne (n : ℝ) = n := by
  unfold rne
  rw [Int.fract_intCast, if_pos (by norm_num), Int.floor_intCast]

theorem round10_zero : round10 0 = 0 := by
  have h : (0 : ℝ) * 10 ^ 10 = ((0 : ℤ) : ℝ) := by norm_num
  unfold round10
  rw [h, rne_intCast]
  norm_num

theorem round10_one : round10 1 = 1 := by
  have h : (1 : ℝ) * 10 ^ 10 = ((10 ^ 10 : ℤ) : ℝ) := by norm_num
  unfold round10
  rw [h, rne_intCast]
  push_cast
  norm_num

theorem round10C_zero : round10C 0 = 0 := by
  unfold round10C
  rw [Complex.zero_re, Complex.zero_im, round10_zero]
  exact Complex.ext rfl rfl

theorem round10C_one : round10C 1 = 1 := by
  unfold round10C
  rw [Complex.one_re, Complex.one_im, round10_one, round10_zero]
  exact Complex.ext rfl rfl

theorem round10C_ofReal (r : ℝ) : round10C (r : ℂ) = ((round10 r : ℝ) : ℂ) := by
  unfold round10C
  rw [Complex.ofReal_re, Complex.ofReal_im, round10_zero]
  exact Complex.ext rfl rfl

theorem atan2_zero_one : atan2 0 1 = 0 := by
  unfold atan2
  have h : (⟨1, 0⟩ : ℂ) = 1 := Complex.ext rfl rfl
  rw [h, Complex.arg_one]

/-! ## `params_zyz` on the identity -/

theorem params_zyz_cId : params_zyz cId = (0, (0, 0, 0)) := by
  have hdet : det2 cId = 1 := by norm_num [det2, cId]
  unfold params_zyz
  rw [hdet, Complex.one_cpow]
  have h10 : round10C (1 * cId 1 0) = 0 := by
    rw [one_mul]
    norm_num [cId, round10C_zero]
  have h00 : round10C (1 * cId 0 0) = 1 := by
    rw [one_mul]
    norm_num [cId, round10C_one]
  have h11 : round10C (1 * cId 1 1) = 1 := by
    rw [one_mul]
    norm_num [cId, round10C_one]
  simp only [h10, h00, h11, Complex.abs.map_zero, Complex.abs.map_one, Complex.arg_one,
    Complex.arg_zero, atan2_zero_one]
  norm_num

theorem params_u3_cId : params_u3 cId = (0, (0, 0, 0)) := by
  unfold params_u3
  rw [params_zyz_cId]
  norm_num

theorem oneQubitGates_u3_cId (q : ℕ) :
    oneQubitGates OneQubitBasis.u3 cId q = [GateOp.U3 0 0 0 q, GateOp.GlobalPhase 0] := by
  unfold oneQubitGates
  rw [params_u3_cId]

/-! ## Claim C7: synthesis of the identity -/

/-- Claim C7 (amended): synthesizing the one-qubit identity appends exactly
the two zero-angle gates `U3(0, 0, 0)` and `GlobalPhase(0)` — zero-angle
gates are emitted by the one-qubit decomposition, not suppressed (the
`EPS_angle` threshold applies only inside the uniformly-controlled rotation
kernel); no gate with a nonzero effect is appended. -/
theorem identity_synthesis (O : QsdOracles) (circuit : List GateOp)
    (blocks : List (ℕ × ℕ)) (q : ℕ) (depth : ℕ) :
    quantum_shannon_decomposition O circuit blocks [q] cId 2 depth
        = (circuit ++ [GateOp.U3 0 0 0 q, GateOp.GlobalPhase 0], blocks) ∧
    shannon_apply_unitary O circuit cId [q]
        = circuit ++ [GateOp.U3 0 0 0 q, GateOp.GlobalPhase 0] := by
  have h : quantum_shannon_decomposition O circuit blocks [q] cId 2 depth
      = (circuit ++ oneQubitGates OneQubitBasis.u3 cId (([q] : List ℕ).headD 0), blocks) := by
    rw [quantum_shannon_decomposition]
    norm_num
  have h2 : quantum_shannon_decomposition O circuit [] [q] cId (2 ^ ([q] : List ℕ).length) 0
      = (circuit ++ oneQubitGates OneQubitBasis.u3 cId (([q] : List ℕ).headD 0), []) := by
    rw [quantum_shannon_decomposition]
    norm_num
  constructor
  · rw [h, oneQubitGates_u3_cId]
    rfl
  · unfold shannon_apply_unitary
    rw [h2, oneQubitGates_u3_cId]
    rfl

/-- Claim C7, as stated, is false: synthesizing `I_2` does append gates, and
the zero-angle rotations it appends are not suppressed by the `EPS_angle`
threshold — the one-qubit decomposition emits unconditionally. -/
theorem identity_synthesis_counterexample :
    shannon_apply_unitary trivialOracles [] cId [0]
        = [GateOp.U3 0 0 0 0, GateOp.GlobalPhase 0] ∧
    shannon_apply_unitary trivialOracles [] cId [0] ≠ [] := by
  have h := (identity_synthesis trivialOracles [] [] 0 0).2
  rw [List.nil_append] at h
  exact ⟨h, by rw [h]; simp⟩

/-! ## Claim C6: the `params_zyz` closed form and the rounding step -/

theorem sC6_pos : (0 : ℝ) < sC6 := by norm_num [sC6]

theorem cC6_sq : cC6 ^ 2 = 1 - sC6 ^ 2 := Real.sq_sqrt (by norm_num [sC6])

theorem cC6_lt_one : cC6 < 1 := by
  have h := Real.sqrt_lt_sqrt (show (0:ℝ) ≤ 1 - sC6 ^ 2 by norm_num [sC6])
    (show (1:ℝ) - sC6 ^ 2 < 1 by norm_num [sC6])
  rwa [Real.sqrt_one] at h

theorem cC6_ge : 1 - sC6 ^ 2 ≤ cC6 := by
  have h1 : ((1 : ℝ) - sC6 ^ 2) ^ 2 ≤ 1 - sC6 ^ 2 := by norm_num [sC6]
  have h2 := Real.sqrt_le_sqrt h1
  rwa [Real.sqrt_sq (by norm_num [sC6])] at h2

theorem cC6_pos : (0 : ℝ) < cC6 :=
  lt_of_lt_of_le (by norm_num [sC6]) cC6_ge

theorem round10_sC6 : round10 sC6 = 0 := by
  have hval : sC6 * 10 ^ 10 = 1 / 10 := by norm_num [sC6]
  have hfl : ⌊(1 : ℝ) / 10⌋ = 0 := by
    rw [Int.floor_eq_zero_iff]
    constructor <;> norm_num
  have hfr : Int.fract ((1 : ℝ) / 10) = 1 / 10 :=
    Int.fract_eq_self.mpr ⟨by norm_num, by norm_num⟩
  unfold round10 rne
  rw [hval, hfr, if_pos (by norm_num), hfl]
  norm_num

theorem round10_neg_sC6 : round10 (-sC6) = 0 := by
  have hval : -sC6 * 10 ^ 10 = -(1 / 10) := by norm_num [sC6]
  have hfl : ⌊-((1 : ℝ) / 10)⌋ = -1 := by
    rw [Int.floor_eq_iff]
    constructor <;> norm_num
  have hfr : Int.fract (-((1 : ℝ) / 10)) = 9 / 10 := by
    unfold Int.fract
    rw [hfl]
    norm_num
  unfold round10 rne
  rw [hval, hfr, if_neg (by norm_num), if_pos (by norm_num), hfl]
  norm_num

theorem round10_cC6 : round10 cC6 = 1 := by
  have hs : sC6 ^ 2 = 1 / 10 ^ 22 := by norm_num [sC6]
  have hub : cC6 * 10 ^ 10 < 10 ^ 10 := by nlinarith [cC6_lt_one]
  have hlb : (10 : ℝ) ^ 10 - 1 / 2 < cC6 * 10 ^ 10 := by nlinarith [cC6_ge]
  have hfl : ⌊cC6 * 10 ^ 10⌋ = 10 ^ 10 - 1 := by
    rw [Int.floor_eq_iff]
    constructor
    · push_cast
      nlinarith [hlb]
    · push_cast
      nlinarith [hub]
  have hfr : 1 / 2 < Int.fract (cC6 * 10 ^ 10) := by
    unfold Int.fract
    rw [hfl]
    push_cast
    nlinarith [hlb]
  unfold round10 rne
  rw [if_neg (not_lt.mpr (le_of_lt hfr)), if_pos hfr, hfl]
  push_cast
  norm_num

theorem det2_UC6 : det2 UC6 = 1 := by
  have hcs : cC6 ^ 2 + sC6 ^ 2 = 1 := by rw [cC6_sq]; ring
  have e00 : UC6 0 0 = ((cC6 : ℝ) : ℂ) := rfl
  have e01 : UC6 0 1 = -((sC6 : ℝ) : ℂ) := rfl
  have e10 : UC6 1 0 = ((sC6 : ℝ) : ℂ) := rfl
  have e11 : UC6 1 1 = ((cC6 : ℝ) : ℂ) := rfl
  unfold det2
  rw [e00, e01, e10, e11]
  norm_cast
  rw [show cC6 * cC6 - -sC6 * sC6 = cC6 ^ 2 + sC6 ^ 2 from by ring, hcs]

theorem params_zyz_UC6 : params_zyz UC6 = (0, (0, 0, 0)) := by
  unfold params_zyz
  rw [det2_UC6, Complex.one_cpow]
  have h10 : round10C (1 * UC6 1 0) = 0 := by
    rw [one_mul, show UC6 1 0 = ((sC6 : ℝ) : ℂ) from rfl, round10C_ofReal, round10_sC6]
    norm_num
  have h00 : round10C (1 * UC6 0 0) = 1 := by
    rw [one_mul, show UC6 0 0 = ((cC6 : ℝ) : ℂ) from rfl, round10C_ofReal, round10_cC6]
    norm_num
  have h11 : round10C (1 * UC6 1 1) = 1 := by
    rw [one_mul, show UC6 1 1 = ((cC6 : ℝ) : ℂ) from rfl, round10C_ofReal, round10_cC6]
    norm_num
  simp only [h10, h00, h11, Complex.abs.map_zero, Complex.abs.map_one, Complex.arg_one,
    Complex.arg_zero, atan2_zero_one]
  norm_num

theorem params_zyz_claim_UC6_theta : (params_zyz_claim UC6).2.1 ≠ 0 := by
  show 2 * atan2 (Complex.abs (det2 UC6 ^ (-(1 / 2) : ℂ) * UC6 1 0))
      (Complex.abs (det2 UC6 ^ (-(1 / 2) : ℂ) * UC6 0 0)) ≠ 0
  rw [det2_UC6, Complex.one_cpow, one_mul, one_mul,
    show UC6 1 0 = ((sC6 : ℝ) : ℂ) from rfl, show UC6 0 0 = ((cC6 : ℝ) : ℂ) from rfl,
    Complex.abs_ofReal, Complex.abs_ofReal, abs_of_pos sC6_pos, abs_of_pos cC6_pos]
  unfold atan2
  intro h
  have harg : Complex.arg ⟨cC6, sC6⟩ = 0 := by linarith
  rw [Complex.arg_eq_zero_iff] at harg
  exact absurd harg.2 (ne_of_gt sC6_pos)

/-- Claim C6 (amended): for every `2×2` matrix, `params_zyz` returns exactly
the spec's closed form computed from the rounded matrix
`V' = (c·U).round(10)` (half-to-even on real and imaginary parts):
`alpha = -arg(c)` with `c = det(U)^(-1/2)`, `theta = 2·atan2(|V'₁₀|, |V'₀₀|)`,
`phi = (s + d)/2` and `lam = (s - d)/2` with `s = 2·arg(V'₁₁)`,
`d = 2·arg(V'₁₀)`. -/
theorem params_zyz_eq_rounded_spec (U : CMat) :
    params_zyz U = params_zyz_rounded_spec U := rfl

/-- Claim C6, as stated, is false: because of the rounding step `v.round(10)`
the returned angles are not the claimed closed form on every unitary input.
At the exactly unitary rotation `UC6` (angle `≈ 10^(-11)`), rounding sends
the off-diagonal entries to `0` and the diagonal to `1`, so the source
returns `theta = 0` while the claimed closed form has `theta ≠ 0`. -/
theorem params_zyz_rounding_counterexample :
    IsUnitary2 UC6 ∧ params_zyz UC6 ≠ params_zyz_claim UC6 := by
  constructor
  · have hcs : cC6 ^ 2 + sC6 ^ 2 = 1 := by rw [cC6_sq]; ring
    have e00 : UC6 0 0 = ((cC6 : ℝ) : ℂ) := rfl
    have e01 : UC6 0 1 = -((sC6 : ℝ) : ℂ) := rfl
    have e10 : UC6 1 0 = ((sC6 : ℝ) : ℂ) := rfl
    have e11 : UC6 1 1 = ((cC6 : ℝ) : ℂ) := rfl
    intro i hi j hj
    interval_cases i <;> interval_cases j <;>
      simp only [Finset.sum_range_succ, Finset.sum_range_zero, zero_add,
        e00, e01, e10, e11, map_neg, Complex.conj_ofReal] <;>
      norm_num <;>
      (try norm_cast) <;>
      (first
        | ring1
        | linarith [hcs])
  · intro hEq
    have hth := congrArg (fun t : ℝ × (ℝ × ℝ × ℝ) => t.2.1) hEq
    rw [params_zyz_UC6] at hth
    exact params_zyz_claim_UC6_theta hth.symm

/-! ## Claim C3: the CZ-basis uniformly-controlled rotation kernel -/

theorem trailingZeros_succ (m : ℕ) :
    trailingZeros (m + 1)
      = if (m + 1) % 2 = 0 then trailingZeros ((m + 1) / 2) + 1 else 0 := by
  rw [trailingZeros]

theorem lsZeroBit_succ (m : ℕ) :
    lsZeroBit (m + 1)
      = if (m + 1) % 2 = 0 then 0 else lsZeroBit ((m + 1) / 2) + 1 := by
  rw [lsZeroBit]

/-- The trailing-zero count of `i + 1` is the position of the
least-significant zero bit of `i` (adding one turns the trailing run of one
bits of `i` into the trailing run of zero bits of `i + 1`). -/
theorem trailingZeros_succ_eq_lsZeroBit (i : ℕ) : trailingZeros (i + 1) = lsZeroBit i := by
  induction i using Nat.strong_induction_on with
  | _ i ih =>
    rcases Nat.eq_zero_or_pos i with h0 | hpos
    · subst h0
      rw [trailingZeros_succ, if_neg (by omega), lsZeroBit]
    · rcases Nat.even_or_odd i with he | ho
      · obtain ⟨j, hj⟩ := he
        rw [trailingZeros_succ, if_neg (by omega)]
        obtain ⟨m, hm⟩ : ∃ m, i = m + 1 := ⟨i - 1, by omega⟩
        rw [hm, lsZeroBit_succ, if_pos (by omega)]
      · obtain ⟨j, hj⟩ := ho
        subst hj
        rw [trailingZeros_succ, if_pos (by omega),
          show (2 * j + 1 + 1) / 2 = j + 1 from by omega]
        rw [lsZeroBit_succ, if_neg (by omega),
          show (2 * j + 1) / 2 = j from by omega]
        rw [ih j (by omega)]

theorem ucHalfButterfly_length : ∀ (k : ℕ) (l : List ℝ), l.length = 2 ^ k →
    (ucHalfButterfly k l).length = 2 ^ k := by
  intro k
  induction k with
  | zero => intro l h; simpa [ucHalfButterfly] using h
  | succ k ih =>
    intro l h
    have hpow : (2 : ℕ) ^ (k + 1) = 2 ^ k + 2 ^ k := by rw [pow_succ]; omega
    have hhalf : l.length / 2 = 2 ^ k := by omega
    have hta : (l.take (l.length / 2)).length = 2 ^ k := by
      rw [List.length_take, hhalf, h]
      omega
    have hdr : (l.drop (l.length / 2)).length = 2 ^ k := by
      rw [List.length_drop, hhalf, h]
      omega
    simp only [ucHalfButterfly]
    rw [List.length_append, List.length_zipWith, List.length_zipWith,
      ih _ hta, ih _ hdr]
    omega

theorem decompose_uc_rotations_length (k : ℕ) (l : List ℝ) (h : l.length = 2 ^ k) :
    (decompose_uc_rotations l false).length = 2 ^ k := by
  unfold decompose_uc_rotations
  rw [h, Nat.log2_eq_log_two, Nat.log_pow (by norm_num)]
  exact ucHalfButterfly_length k l h

theorem numCZ_append (l1 l2 : List GateOp) : numCZ (l1 ++ l2) = numCZ l1 + numCZ l2 := by
  unfold numCZ
  rw [List.filter_append, List.length_append]

theorem numCZ_ucryLoop (controls : List ℕ) (target : ℕ) (n : ℕ) :
    ∀ (l : List ℝ) (i : ℕ), i + l.length = n →
      numCZ (ucryLoop controls target n i l) = n - 1 - i := by
  intro l
  induction l with
  | nil =>
    intro i h
    simp only [List.length_nil, Nat.add_zero] at h
    simp only [ucryLoop, numCZ, List.filter_nil, List.length_nil]
    omega
  | cons a rest ih =>
    intro i h
    rw [List.length_cons] at h
    rw [ucryLoop, numCZ_append, numCZ_append]
    have h1 : numCZ (if EPSILON < |a| then [GateOp.RY a target] else []) = 0 := by
      by_cases hc : EPSILON < |a| <;> simp [hc, numCZ, GateOp.isCZ]
    have h3 : numCZ (ucryLoop controls target n (i + 1) rest) = n - 1 - (i + 1) :=
      ih (i + 1) (by omega)
    rw [h1, h3]
    by_cases h2 : i < n - 1
    · rw [if_pos h2]
      have hone : numCZ [GateOp.CZ (controls.getD
          (if i ≠ n - 1 then trailingZeros (i + 1) else controls.length - 1) 0) target]
          = 1 := by simp [numCZ, GateOp.isCZ]
      rw [hone]
      omega
    · rw [if_neg h2]
      simp only [numCZ, List.filter_nil, List.length_nil]
      omega

theorem ucryLoop_eq_flatMap (controls : List ℕ) (target : ℕ) (n : ℕ) :
    ∀ (l : List ℝ) (i : ℕ),
      ucryLoop controls target n i l = (List.range l.length).flatMap (fun j =>
        (if EPSILON < |l.getD j 0| then [GateOp.RY (l.getD j 0) target] else [])
          ++ (if i + j < n - 1 then
                [GateOp.CZ (controls.getD
                  (if i + j ≠ n - 1 then trailingZeros (i + j + 1)
                   else controls.length - 1) 0) target]
              else [])) := by
  intro l
  induction l with
  | nil => intro i; simp [ucryLoop]
  | cons a rest ih =>
    intro i
    rw [ucryLoop, ih (i + 1), List.length_cons, List.range_succ_eq_map,
      List.flatMap_cons, List.flatMap_map]
    simp only [List.getD_cons_zero, Nat.add_zero, Function.comp,
      List.getD_cons_succ, Nat.succ_eq_add_one, List.append_assoc,
      show ∀ j : ℕ, i + 1 + j = i + (j + 1) from fun j => by omega]

/-- Claim C3 (amended): in the CZ-basis uniformly-controlled rotation kernel
with `2^k` transformed angles and `k ≥ 1` controls, the appended record is,
in index order: the rotation `RY(θ'ᵢ)` on the target `qubits[-1]` exactly
when `|θ'ᵢ| > 1e-10`, followed for every `i < 2^k − 1` by a `CZ` with target
`qubits[-1]` and control `controls[c(i)]`, where `c(i)` is the number of
trailing zero bits of `i + 1` — equivalently the position of the
least-significant zero bit of `i` itself (not of `i + 1`); the final
entangler at `i = 2^k − 1` is omitted, so exactly `2^k − 1` CZ gates are
emitted. -/
theorem get_ucry_cz_structure (k : ℕ) (qubits : List ℕ) (angles : List ℝ)
    (hk : 1 ≤ k) (hq : qubits.length = k + 1) (ha : angles.length = 2 ^ k) :
    (get_ucry_cz qubits angles = (List.range (2 ^ k)).flatMap (fun i =>
      (if EPSILON < |(decompose_uc_rotations angles false).getD i 0| then
          [GateOp.RY ((decompose_uc_rotations angles false).getD i 0) (qubits.getLastD 0)]
        else [])
      ++ (if i < 2 ^ k - 1 then
            [GateOp.CZ (qubits.dropLast.getD (trailingZeros (i + 1)) 0)
              (qubits.getLastD 0)]
          else []))) ∧
    (∀ i : ℕ, trailingZeros (i + 1) = lsZeroBit i) ∧
    numCZ (get_ucry_cz qubits angles) = 2 ^ k - 1 := by
  have hcn : qubits.dropLast ≠ [] := by
    intro hnil
    have := congrArg List.length hnil
    rw [List.length_dropLast, hq] at this
    simp at this
    omega
  have hlen : (decompose_uc_rotations angles false).length = 2 ^ k :=
    decompose_uc_rotations_length k angles ha
  have hget : get_ucry_cz qubits angles
      = ucryLoop qubits.dropLast (qubits.getLastD 0) angles.length 0
          (decompose_uc_rotations angles false) := by
    unfold get_ucry_cz
    rw [if_neg hcn]
  refine ⟨?_, fun i => trailingZeros_succ_eq_lsZeroBit i, ?_⟩
  · rw [hget, ucryLoop_eq_flatMap, hlen, ha]
    congr 1
    funext j
    by_cases hj : j < 2 ^ k - 1
    · have h1 : 0 + j < 2 ^ k - 1 := by omega
      have h2 : 0 + j ≠ 2 ^ k - 1 := by omega
      rw [if_pos h1, if_pos h2, if_pos hj]
      norm_num
    · rw [if_neg (show ¬ (0 + j < 2 ^ k - 1) from by omega), if_neg hj]
  · rw [hget, numCZ_ucryLoop _ _ _ _ 0 (by rw [hlen, ha]; omega), ha]
    omega

/-- Witness for C3 at `k = 1`, qubits `[0, 1]`, angles `[1, 1]`. -/
theorem get_ucry_cz_structure_witness :
    (1 ≤ 1 ∧ ([0, 1] : List ℕ).length = 1 + 1 ∧ ([1, 1] : List ℝ).length = 2 ^ 1) ∧
    ((get_ucry_cz [0, 1] [1, 1] = (List.range (2 ^ 1)).flatMap (fun i =>
      (if EPSILON < |(decompose_uc_rotations [1, 1] false).getD i 0| then
          [GateOp.RY ((decompose_uc_rotations [1, 1] false).getD i 0)
            (([0, 1] : List ℕ).getLastD 0)]
        else [])
      ++ (if i < 2 ^ 1 - 1 then
            [GateOp.CZ ((([0, 1] : List ℕ).dropLast).getD (trailingZeros (i + 1)) 0)
              (([0, 1] : List ℕ).getLastD 0)]
          else []))) ∧
    (∀ i : ℕ, trailingZeros (i + 1) = lsZeroBit i) ∧
    numCZ (get_ucry_cz [0, 1] [1, 1]) = 2 ^ 1 - 1) :=
  ⟨⟨le_refl 1, by norm_num, by norm_num⟩,
    get_ucry_cz_structure 1 [0, 1] [1, 1] (le_refl 1) (by norm_num) (by norm_num)⟩

/-- Claim C3, as stated, is false on the control positions: it places the
entangler for step `i` at `controls[p]` with `p` the position of the
least-significant zero bit of `i + 1`, but the code uses the trailing-zero
count of `i + 1` (the least-significant zero bit of `i`).  Concretely, with
controls `[5, 6]` and target `7`, at `i = 0` the code emits `CZ(5, 7)` while
the claim names `controls[lsZeroBit 1] = controls[1] = 6`. -/
theorem get_ucry_cz_counterexample :
    (get_ucry_cz [5, 6, 7] [4, 0, 0, 0]).getD 1 (GateOp.GlobalPhase 0) = GateOp.CZ 5 7 ∧
    lsZeroBit (0 + 1) = 1 ∧
    ([5, 6] : List ℕ).getD (lsZeroBit (0 + 1)) 0 = 6 ∧
    GateOp.CZ 5 7 ≠ GateOp.CZ 6 7 := by
  have hlsb : lsZeroBit (0 + 1) = 1 := by
    rw [show (0 + 1 : ℕ) = 0 + 1 from rfl, lsZeroBit_succ, if_neg (by omega),
      show ((0 + 1 : ℕ)) / 2 = 0 from by omega, lsZeroBit]
  have htrans : decompose_uc_rotations [4, 0, 0, 0] false = [1, 1, 1, 1] := by
    unfold decompose_uc_rotations
    have hlog : Nat.log2 (([4, 0, 0, 0] : List ℝ).length) = 2 := by
      rw [show (([4, 0, 0, 0] : List ℝ).length) = 2 ^ 2 from by norm_num,
        Nat.log2_eq_log_two, Nat.log_pow (by norm_num)]
    rw [hlog]
    norm_num [ucHalfButterfly]
  have hloop : get_ucry_cz [5, 6, 7] [4, 0, 0, 0] =
      [GateOp.RY 1 7, GateOp.CZ 5 7, GateOp.RY 1 7, GateOp.CZ 6 7, GateOp.RY 1 7,
        GateOp.CZ 5 7, GateOp.RY 1 7] := by
    unfold get_ucry_cz
    rw [if_neg (by simp), htrans]
    rw [show ([5, 6, 7] : List ℕ).dropLast = [5, 6] from rfl,
      show ([5, 6, 7] : List ℕ).getLastD 0 = 7 from rfl]
    rw [ucryLoop, ucryLoop, ucryLoop, ucryLoop, ucryLoop]
    rw [trailingZeros_succ, trailingZeros_succ, trailingZeros_succ]
    norm_num [EPSILON, trailingZeros]
  refine ⟨by rw [hloop]; rfl, hlsb, by rw [hlsb]; rfl, by simp⟩

/-! ## Claim C8: the A.2 post-pass with fewer than two leaf blocks -/

/-- Claim C8: whenever `apply_a2_optimization` is invoked with fewer than two
recorded two-qubit leaf blocks, it returns without modifying the circuit
record in any way: the log is exactly as it was before the call. -/
theorem apply_a2_optimization_frame (O : QsdOracles) (log : List GateOp)
    (blocks : List (ℕ × ℕ)) (h : blocks.length < 2) :
    apply_a2_optimization O log blocks = log := by
  unfold apply_a2_optimization
  rw [if_pos h]

/-- Witness for C8 on a one-gate record and an empty block stack. -/
theorem apply_a2_optimization_frame_witness :
    (([] : List (ℕ × ℕ)).length < 2) ∧
    apply_a2_optimization trivialOracles [GateOp.CZ 0 1] [] = [GateOp.CZ 0 1] :=
  ⟨by norm_num, apply_a2_optimization_frame trivialOracles [GateOp.CZ 0 1] [] (by norm_num)⟩

/-! ## Claim C4: the demultiplexor -/

open Classical in
/-- Claim C4: given block unitaries `(U₁, U₂)`, the demultiplexor computes
eigenvalues `d` and eigenvectors `E` of `u = U₁·U₂ᴴ` (Hermitian
eigendecomposition when `u` is Hermitian within tolerance, otherwise complex
Schur taking the diagonal of the triangular factor), forms
`W = diag(√d)·Eᴴ·U₂` with `√` the principal complex square root, and appends,
in this order: the recursive QSD of `W` on the inner qubits (all but the
last), a single `UCRZ` gate with angles `αᵢ = 2·arg(conj(√dᵢ))` whose
controls are the inner qubits and whose target is the last (outer control)
qubit, then the recursive QSD of `E` on the inner qubits. -/
theorem demultiplexor_spec (O : QsdOracles) (circuit : List GateOp)
    (blocks : List (ℕ × ℕ)) (demux_qubits : List ℕ) (U1 U2 : CMat) (m depth : ℕ) :
    demultiplexor O circuit blocks demux_qubits U1 U2 m depth =
      (let u := cmul m U1 (ctrans U2)
       let ed := if is_hermitian_matrix m u then O.eigh m u
                 else (fun i => (O.schur m u).1 i i, (O.schur m u).2)
       let W := cmul m (cmul m (cdiag fun i => csqrt (ed.1 i)) (ctrans ed.2)) U2
       let left := quantum_shannon_decomposition O circuit blocks demux_qubits.dropLast W m
         (depth + 1)
       quantum_shannon_decomposition O
         (left.1 ++ [GateOp.UCRZ
            ((List.range m).map fun i => 2 * Complex.arg (conj (csqrt (ed.1 i))))
            demux_qubits.dropLast (demux_qubits.getLastD 0)])
         left.2 demux_qubits.dropLast ed.2 m (depth + 1)) := by
  rw [demultiplexor]
  rfl

/-! ## Claim C5: the A.1 substitution in the QSD driver -/

theorem numCZ_get_ucry_cz (qubits : List ℕ) (angles : List ℝ) (j : ℕ)
    (hq : 2 ≤ qubits.length) (ha : angles.length = 2 ^ j) :
    numCZ (get_ucry_cz qubits angles) = 2 ^ j - 1 := by
  have hcn : qubits.dropLast ≠ [] := by
    intro hnil
    have := congrArg List.length hnil
    rw [List.length_dropLast] at this
    simp at this
    omega
  unfold get_ucry_cz
  rw [if_neg hcn,
    numCZ_ucryLoop _ _ _ _ 0 (by rw [decompose_uc_rotations_length j angles ha, ha]; omega),
    ha]
  omega

/-- Claim C5: in the QSD recursion on a unitary of dimension `2m > 4` at
recursion depth ≥ 1, after the left demultiplexor on `(v1h, v2h)` the driver
emits the central uniformly-controlled rotation with the doubled angles `2θ`
in the CZ basis (`get_ucry_cz`, A.1 substitution — the final CZ is omitted,
so the central block carries exactly `len(θ) − 1` CZ gates), and compensates
by negating exactly the right-half columns `m/2 … m−1` of `L₂ = u2` before
running the right demultiplexor on `(L₁, L₂')`. -/
theorem quantum_shannon_decomposition_a1 (O : QsdOracles) (circuit : List GateOp)
    (blocks : List (ℕ × ℕ)) (qubits : List ℕ) (U : CMat) (dim depth : ℕ) (j : ℕ)
    (hdim : 4 < dim) (hdepth : 1 ≤ depth) (hj : 1 ≤ j)
    (hlen : (O.cossin dim U).2.1.length = 2 ^ j) (hq : 2 ≤ qubits.length) :
    (quantum_shannon_decomposition O circuit blocks qubits U dim depth =
      (let cs := O.cossin dim U
       let left := demultiplexor O circuit blocks qubits cs.2.2.1 cs.2.2.2 (dim / 2) depth
       let central := get_ucry_cz qubits (cs.2.1.map fun θ => 2 * θ)
       demultiplexor O (left.1 ++ central) left.2 qubits cs.1.1
         (fun r c => if cs.2.1.length / 2 ≤ c then -cs.1.2 r c else cs.1.2 r c)
         (dim / 2) depth)) ∧
    numCZ (get_ucry_cz qubits ((O.cossin dim U).2.1.map fun θ => 2 * θ))
      = (O.cossin dim U).2.1.length - 1 := by
  constructor
  · rw [quantum_shannon_decomposition]
    rw [if_neg (by omega : ¬ dim = 2), if_neg (by omega : ¬ dim = 4), dif_pos hdim,
      if_neg (by omega : ¬ depth = 0)]
  · rw [numCZ_get_ucry_cz qubits _ j hq (by rw [List.length_map]; exact hlen), hlen]

/-- Witness for C5 with the inert oracles at dimension 8, depth 1. -/
theorem quantum_shannon_decomposition_a1_witness :
    ((4 : ℕ) < 8 ∧ (1 : ℕ) ≤ 1 ∧ (1 : ℕ) ≤ 2 ∧
      (trivialOracles.cossin 8 0).2.1.length = 2 ^ 2 ∧
      (2 : ℕ) ≤ ([0, 1, 2] : List ℕ).length) ∧
    numCZ (get_ucry_cz [0, 1, 2] ((trivialOracles.cossin 8 0).2.1.map fun θ => 2 * θ))
      = (trivialOracles.cossin 8 0).2.1.length - 1 :=
  ⟨⟨by norm_num, le_refl 1, by norm_num, by norm_num [trivialOracles], by norm_num⟩,
    (quantum_shannon_decomposition_a1 trivialOracles [] [] [0, 1, 2] 0 8 1 2
      (by norm_num) (le_refl 1) (by norm_num) (by norm_num [trivialOracles])
      (by norm_num)).2⟩
